import Mathlib

/-!
Verification of the audio level-meter pipeline in src/main.rs against its
natural-language specification.

Modelling conventions:
* `f32` values are modelled by `F32`: a finite value is an exact real number,
  and the special IEEE-754 outcomes NaN, `+inf`, `-inf` are explicit
  constructors.  Rounding of finite results is not modelled.
* Buffers and per-channel sample sequences are Lean lists.
* The `assert!` macro (a fatal contract violation in the source) is modelled
  by returning `none` from an `Option`-valued function.
* Strings built character by character are modelled as lists of characters.
-/

namespace AudioInStream

/-- Outcome model for a 32-bit float: an exact finite real, an infinity, or
NaN.  Only the operations the source performs are defined below, each
following the IEEE-754 behaviour of the corresponding Rust operation. -/
inductive F32 where
  | nan : F32
  | inf : F32
  | ninf : F32
  | fin : ℝ → F32

/-- Rust `f32::max`: if one operand is NaN the other is returned, otherwise
the larger operand. -/
noncomputable def fmax : F32 → F32 → F32
  | .nan, b => b
  | a, .nan => a
  | .inf, _ => .inf
  | _, .inf => .inf
  | .ninf, b => b
  | a, .ninf => a
  | .fin x, .fin y => .fin (max x y)

/-- Rust `f32::min`: if one operand is NaN the other is returned, otherwise
the smaller operand. -/
noncomputable def fmin : F32 → F32 → F32
  | .nan, b => b
  | a, .nan => a
  | .ninf, _ => .ninf
  | _, .ninf => .ninf
  | .inf, b => b
  | a, .inf => a
  | .fin x, .fin y => .fin (min x y)

/-- Source `clamp` (src/main.rs lines 20-22): `x.max(min).min(max)`, on the
`F32` model. -/
noncomputable def fclamp (x lo hi : F32) : F32 := fmin (fmax x lo) hi

/-- Source `clamp` specialised to finite values, stated generically over a
linear order; `fclamp_fin` below shows it agrees with the `F32` version on
finite operands. -/
def clamp {α : Type} [LinearOrder α] (x lo hi : α) : α := min (max x lo) hi

/-- IEEE-754 division as performed by Rust `f32` division: a zero divisor
with a zero dividend gives NaN, with a nonzero dividend gives a signed
infinity.  (Signs of infinite operands are simplified; in this development
`fdiv` is only ever applied to two finite operands.) -/
noncomputable def fdiv : F32 → F32 → F32
  | .nan, _ => .nan
  | _, .nan => .nan
  | .fin a, .fin b =>
      if b = 0 then (if a = 0 then .nan else if 0 < a then .inf else .ninf)
      else .fin (a / b)
  | .inf, .inf => .nan
  | .inf, .ninf => .nan
  | .ninf, .inf => .nan
  | .ninf, .ninf => .nan
  | .inf, .fin _ => .inf
  | .ninf, .fin _ => .ninf
  | .fin _, .inf => .fin 0
  | .fin _, .ninf => .fin 0

/-- IEEE-754 square root as performed by Rust `f32::sqrt`: NaN on negative
inputs (and NaN), `+inf` on `+inf`. -/
noncomputable def fsqrt : F32 → F32
  | .nan => .nan
  | .inf => .inf
  | .ninf => .nan
  | .fin x => if x < 0 then .nan else .fin (Real.sqrt x)

/-- IEEE-754 base-10 logarithm as performed by Rust `f32::log10`: `-inf` at
zero, NaN on negative inputs, `+inf` at `+inf`. -/
noncomputable def flog10 : F32 → F32
  | .nan => .nan
  | .inf => .inf
  | .ninf => .nan
  | .fin x => if x < 0 then .nan else if x = 0 then .ninf else .fin (Real.logb 10 x)

/-- Source `root_mean_square` (src/main.rs lines 24-33): the loop accumulates
`n` (the element count) and `square_sum` (the sum of squares), and the
function returns `(square_sum / n as f32).sqrt()`.  For an empty input the
division is `0.0 / 0.0`. -/
noncomputable def root_mean_square (values : List ℝ) : F32 :=
  fsqrt (fdiv (.fin ((values.map fun x => x ^ 2).sum)) (.fin (values.length : ℝ)))

/-- Source `decibels_overload` (src/main.rs lines 41-43):
`20.0 * loudness_level.log10()`.  Multiplication by the positive finite
constant 20 maps each infinity to itself and NaN to NaN. -/
noncomputable def decibels_overload (loudness_level : F32) : F32 :=
  match flog10 loudness_level with
  | .nan => .nan
  | .inf => .inf
  | .ninf => .ninf
  | .fin x => .fin (20 * x)

/-- Rust `as usize` cast from `f32` (saturating): NaN and negative values go
to 0, `+inf` saturates to `usize::MAX`, finite nonnegative values are
truncated toward zero. -/
noncomputable def f32_to_usize : F32 → ℕ
  | .nan => 0
  | .ninf => 0
  | .inf => 2 ^ 64 - 1
  | .fin x => if x ≤ 0 then 0 else min (Int.toNat ⌊x⌋) (2 ^ 64 - 1)

/-- Rust `f32` multiplication by `n as f32` for a natural `n` (the
`normalized_value * num_chars as f32` step of `horizontal_scale`). -/
noncomputable def fmul_nat (a : F32) (n : ℕ) : F32 :=
  match a with
  | .nan => .nan
  | .inf => if n = 0 then .nan else .inf
  | .ninf => if n = 0 then .nan else .ninf
  | .fin x => .fin (x * (n : ℝ))

/-- Source `horizontal_scale` (src/main.rs lines 49-61): clamp the value to
[0,1], truncate `value * num_chars` to an integer `ivalue`, and emit one
character per position, a filled mark for positions below `ivalue` and a
blank otherwise.  The built string is modelled as the list of its
characters. -/
noncomputable def horizontal_scale (value : F32) (num_chars : ℕ) : List Char :=
  let normalized_value := fclamp value (.fin 0) (.fin 1)
  let ivalue := f32_to_usize (fmul_nat normalized_value num_chars)
  (List.range num_chars).map fun i => if i < ivalue then '=' else ' '

/-- Discrete display level rendered by `horizontal_scale`: the number of
filled characters in the produced string. -/
noncomputable def display_level (value : F32) (num_chars : ℕ) : ℕ :=
  ((horizontal_scale value num_chars).filter fun c => c == '=').length

/-- Modelled from the spec: the spec's formula for
`scale_to_discrete_level(intensity, level_count)`, namely
`round(intensity * (level_count - 1))`, stated for comparison with the
source's `horizontal_scale` truncation. -/
noncomputable def scale_to_discrete_level_spec (intensity : ℝ) (level_count : ℕ) : ℤ :=
  round (intensity * ((level_count : ℝ) - 1))

/-- Display-intensity scaling performed in `main` (src/main.rs lines
219-222): the value handed to `horizontal_scale` is
`1.0 + decibels_overload / floor_magnitude`, and `horizontal_scale`
immediately clamps it to [0,1]; stated here for a finite decibel value and a
positive floor magnitude. -/
noncomputable def scale_to_intensity (db floor_mag : ℝ) : ℝ :=
  clamp (1 + db / floor_mag) 0 1

/-- Source `step_by` iterator semantics (Rust `Iterator::step_by`): the
first element is always yielded, then `step - 1` elements are skipped
between consecutive yielded elements. -/
def stepBy {α : Type} (step : ℕ) : List α → List α
  | [] => []
  | a :: rest => a :: stepBy step (rest.drop (step - 1))
termination_by l => l.length
decreasing_by simp [List.length_drop]; omega

/-- One deinterleaved channel (src/main.rs lines 118-124):
`iter().skip(channel_index).step_by(num_channels)`. -/
def deinterleave_channel {α : Type} (buf : List α) (channel_index num_channels : ℕ) :
    List α :=
  stepBy num_channels (buf.drop channel_index)

/-- All channels of an interleaved buffer, in channel-index order, as
extracted by the loop of `process_input_buffer`. -/
def deinterleave {α : Type} (buf : List α) (num_channels : ℕ) : List (List α) :=
  (List.range num_channels).map fun ci => deinterleave_channel buf ci num_channels

/-- Reconstruction of the interleaved order from per-channel sequences:
position `k` of the output is element `k / channel_count` of channel
`k % channel_count`. -/
def reinterleave {α : Type} (channels : List (List α)) : List α :=
  (List.range ((channels.map List.length).sum)).filterMap fun k =>
    (channels[k % channels.length]?).bind fun ch => ch[k / channels.length]?

/-- Source `ChannelData` struct (src/main.rs lines 102-106). -/
structure ChannelData where
  rms : F32
  decibels_overload : F32
  samples : List ℝ

/-- Source `process_input_buffer` (src/main.rs lines 108-135).  The two
`assert!` statements (a positive channel count and a buffer length that is a
multiple of the channel count) are fatal; fatality is modelled by `none`.
The buffer is modelled after the per-sample `to_f32` conversion, i.e. as a
list of canonical samples. -/
noncomputable def process_input_buffer (input_buffer : List ℝ) (num_channels : ℕ) :
    Option (List ChannelData) :=
  if 0 < num_channels ∧ input_buffer.length % num_channels = 0 then
    some ((List.range num_channels).map fun channel_index =>
      let samples := deinterleave_channel input_buffer channel_index num_channels
      { rms := root_mean_square samples
        decibels_overload := decibels_overload (root_mean_square samples)
        samples := samples })
  else none

/-- Duration in milliseconds as printed by `main` (src/main.rs line 204):
`1000.0 * num_samples as f32 / sample_config.sample_rate.0 as f32`, where
`num_samples` is `input_buffer.len()`, the total interleaved sample count. -/
def reported_duration_ms (num_samples sample_rate : ℕ) : ℚ :=
  1000 * (num_samples : ℚ) / (sample_rate : ℚ)

/-- Per-channel sample count as printed by `main` (src/main.rs line 201):
`num_samples / channel_data.len()` in integer (usize) division. -/
def reported_samples_per_channel (num_samples num_channels : ℕ) : ℕ :=
  num_samples / num_channels

/-- Sample rate fixed by `main`'s `sample_config` (src/main.rs line 141). -/
def main_sample_rate : ℕ := 44100

/-- Channel count fixed by `main`'s `sample_config` (src/main.rs line 140). -/
def main_channels : ℕ := 2

/-! Helper lemmas about the embedded operations. -/

/-- The decibel conversion at silence: `log10(0.0)` is `-inf` and
`20.0 * -inf = -inf`. -/
lemma decibels_overload_zero : decibels_overload (F32.fin 0) = F32.ninf := by
  simp [decibels_overload, flog10]

/-- The decibel conversion at a positive finite loudness level is the finite
value `20 * log10 x`. -/
lemma decibels_overload_pos (x : ℝ) (hx : 0 < x) :
    decibels_overload (F32.fin x) = F32.fin (20 * Real.logb 10 x) := by
  have h1 : ¬x < 0 := not_lt.mpr hx.le
  have h2 : x ≠ 0 := ne_of_gt hx
  simp [decibels_overload, flog10, h1, h2]

/-- The root mean square of the empty sequence: the source computes
`(0.0 / 0.0).sqrt()`, i.e. NaN — it returns a value, it does not terminate
the process. -/
lemma root_mean_square_nil : root_mean_square ([] : List ℝ) = F32.nan := by
  simp [root_mean_square, fdiv, fsqrt]

/-- On finite operands the source's `clamp` agrees with the order-theoretic
`clamp`. -/
lemma fclamp_fin (x : ℝ) :
    fclamp (F32.fin x) (F32.fin 0) (F32.fin 1) = F32.fin (clamp x 0 1) := by
  simp [fclamp, fmax, fmin, clamp]

/-! Claim theorems. -/

/-- Claim C1 (code_bug evidence): for the concrete stereo scenario (2048
interleaved samples, i.e. 1024 per channel, at 44100 Hz) the printed
per-channel sample count is 1024, but the printed duration uses the total
interleaved count: it equals twice the claimed
`1000 * samples_per_channel / sample_rate` (≈ 46.44 ms instead of ≈ 23.22
ms). -/
theorem claim_C1_duration_bug :
    reported_samples_per_channel 2048 main_channels = 1024 ∧
    reported_duration_ms 2048 main_sample_rate = 2 * (1000 * 1024 / 44100) ∧
    reported_duration_ms 2048 main_sample_rate ≠ 1000 * 1024 / 44100 := by
  refine ⟨rfl, ?_, ?_⟩ <;>
    norm_num [reported_duration_ms, main_sample_rate]

/-- Claim C2 (counterexample): applied to an RMS of 0.0 the decibel
conversion returns `-inf`, not a finite configured floor value — the source
has no floor and its own doc comment designates `-inf` for loudness 0. -/
theorem claim_C2_counterexample : decibels_overload (F32.fin 0) = F32.ninf :=
  decibels_overload_zero

/-- Claim C2 (amended): the decibel conversion computes `20 * log10(rms)`
with no floor; at an RMS of exactly 0.0 it returns `-inf` (the code's
documented designation for silence), and at every positive RMS it returns
the finite value `20 * log10 rms`. -/
theorem claim_C2_amended (x : ℝ) (hx : 0 < x) :
    decibels_overload (F32.fin 0) = F32.ninf ∧
    decibels_overload (F32.fin x) = F32.fin (20 * Real.logb 10 x) :=
  ⟨decibels_overload_zero, decibels_overload_pos x hx⟩

/-- Witness for the amended claim C2, at `rms = 1/10`. -/
theorem claim_C2_amended_witness :
    (0 : ℝ) < 1 / 10 ∧
    (decibels_overload (F32.fin 0) = F32.ninf ∧
      decibels_overload (F32.fin (1 / 10)) = F32.fin (20 * Real.logb 10 (1 / 10))) :=
  ⟨by norm_num, claim_C2_amended (1 / 10) (by norm_num)⟩

/-- Claim C5 (counterexample): the root mean square of the empty sample
sequence does not terminate the process; the source returns the value NaN
(from `0.0 / 0.0`). -/
theorem claim_C5_counterexample : root_mean_square ([] : List ℝ) = F32.nan :=
  root_mean_square_nil

/-- Claim C5 (amended): processing a buffer whose length is not a multiple
of the channel count is fatal (the `assert!` fails, modelled by `none`),
but the root mean square of an empty sample sequence is not fatal: it
returns NaN. -/
theorem claim_C5_amended (buf : List ℝ) (nc : ℕ) (hbad : buf.length % nc ≠ 0) :
    process_input_buffer buf nc = none ∧ root_mean_square ([] : List ℝ) = F32.nan := by
  refine ⟨?_, root_mean_square_nil⟩
  rw [process_input_buffer, if_neg]
  rintro ⟨-, h2⟩
  exact hbad h2

/-- Witness for the amended claim C5, at a one-sample buffer with two
declared channels. -/
theorem claim_C5_amended_witness :
    ([(0 : ℝ)].length % 2 ≠ 0) ∧
    (process_input_buffer [(0 : ℝ)] 2 = none ∧
      root_mean_square ([] : List ℝ) = F32.nan) :=
  ⟨by simp, claim_C5_amended [(0 : ℝ)] 2 (by simp)⟩

/-- Claim C8: the decibel conversion maps an RMS of exactly 1.0 to exactly
0.0; on every positive input it returns the un-clamped finite value
`20 * log10 x`, which is nonpositive for inputs in the canonical range
(0, 1] and strictly positive for inputs exceeding 1.0. -/
theorem claim_C8_decibels (x : ℝ) (hx : 0 < x) :
    decibels_overload (F32.fin 1) = F32.fin 0 ∧
    decibels_overload (F32.fin x) = F32.fin (20 * Real.logb 10 x) ∧
    (x ≤ 1 → 20 * Real.logb 10 x ≤ 0) ∧
    (1 < x → 0 < 20 * Real.logb 10 x) := by
  refine ⟨?_, decibels_overload_pos x hx, ?_, ?_⟩
  · rw [decibels_overload_pos 1 one_pos, Real.logb_one]
    norm_num
  · intro h
    have hlog : Real.logb 10 x ≤ 0 :=
      Real.logb_nonpos (by norm_num) hx.le h
    linarith
  · intro h
    have hlog : 0 < Real.logb 10 x := Real.logb_pos (by norm_num) h
    linarith

/-- Witness for claim C8, at `rms = 10` (a clipping input). -/
theorem claim_C8_decibels_witness :
    (0 : ℝ) < 10 ∧
    (decibels_overload (F32.fin 1) = F32.fin 0 ∧
      decibels_overload (F32.fin 10) = F32.fin (20 * Real.logb 10 10) ∧
      ((10 : ℝ) ≤ 1 → 20 * Real.logb 10 10 ≤ 0) ∧
      ((1 : ℝ) < 10 → 0 < 20 * Real.logb 10 10)) :=
  ⟨by norm_num, claim_C8_decibels 10 (by norm_num)⟩

/-- Claim C4: for a positive floor magnitude, the display-intensity scaling
`clamp(1 + db / floor_mag, 0, 1)` is monotonically non-decreasing in the
decibel value, always lies in [0,1], equals 1.0 at 0 dBov, and equals 0.0 at
or below the configured floor `-floor_mag`. -/
theorem claim_C4_intensity (fm a b : ℝ) (hfm : 0 < fm) (hab : a ≤ b) :
    scale_to_intensity a fm ≤ scale_to_intensity b fm ∧
    (0 ≤ scale_to_intensity a fm ∧ scale_to_intensity a fm ≤ 1) ∧
    scale_to_intensity 0 fm = 1 ∧
    (a ≤ -fm → scale_to_intensity a fm = 0) := by
  unfold scale_to_intensity clamp
  refine ⟨?_, ⟨?_, ?_⟩, ?_, ?_⟩
  · have h1 : 1 + a / fm ≤ 1 + b / fm := by gcongr
    exact min_le_min (max_le_max h1 le_rfl) le_rfl
  · exact le_min (le_max_right _ 0) zero_le_one
  · exact min_le_right _ 1
  · rw [zero_div, add_zero]
    norm_num
  · intro h
    have h1 : 1 + a / fm ≤ 0 := by
      have hdiv : a / fm ≤ -1 := by
        rw [div_le_iff₀ hfm]
        linarith
      linarith
    rw [max_eq_right h1, min_eq_left zero_le_one]

/-- Witness for claim C4, at floor magnitude 96 with decibel values -200 and
0. -/
theorem claim_C4_intensity_witness :
    (0 : ℝ) < 96 ∧ (-200 : ℝ) ≤ 0 ∧
    (scale_to_intensity (-200) 96 ≤ scale_to_intensity 0 96 ∧
      (0 ≤ scale_to_intensity (-200) 96 ∧ scale_to_intensity (-200) 96 ≤ 1) ∧
      scale_to_intensity 0 96 = 1 ∧
      ((-200 : ℝ) ≤ -96 → scale_to_intensity (-200) 96 = 0)) :=
  ⟨by norm_num, by norm_num, claim_C4_intensity 96 (-200) 0 (by norm_num) (by norm_num)⟩

/-- Sum of squares of a real list vanishes exactly when every element is
zero. -/
lemma sum_sq_eq_zero_iff (l : List ℝ) :
    (l.map fun x => x ^ 2).sum = 0 ↔ ∀ x ∈ l, x = 0 := by
  induction l with
  | nil => simp
  | cons a t ih =>
    simp only [List.map_cons, List.sum_cons, List.mem_cons]
    have hsq : (0 : ℝ) ≤ a ^ 2 := sq_nonneg a
    have hsum : (0 : ℝ) ≤ (t.map fun x => x ^ 2).sum := by
      apply List.sum_nonneg
      intro y hy
      obtain ⟨x, -, rfl⟩ := List.mem_map.mp hy
      exact sq_nonneg x
    rw [add_eq_zero_iff_of_nonneg hsq hsum]
    constructor
    · rintro ⟨h1, h2⟩ x hx
      rcases hx with rfl | hx
      · exact pow_eq_zero_iff (n := 2) (by norm_num) |>.mp h1
      · exact ih.mp h2 x hx
    · intro h
      refine ⟨?_, ih.mpr fun x hx => h x (Or.inr hx)⟩
      rw [h a (Or.inl rfl)]
      ring

/-- The sum of squares of a real list is nonnegative. -/
lemma sum_sq_nonneg (l : List ℝ) : (0 : ℝ) ≤ (l.map fun x => x ^ 2).sum := by
  apply List.sum_nonneg
  intro y hy
  obtain ⟨x, -, rfl⟩ := List.mem_map.mp hy
  exact sq_nonneg x

/-- The root mean square of a nonempty list is the finite value
`sqrt(sum of squares / length)`. -/
lemma root_mean_square_of_ne_nil (l : List ℝ) (h : l ≠ []) :
    root_mean_square l =
      F32.fin (Real.sqrt ((l.map fun x => x ^ 2).sum / (l.length : ℝ))) := by
  have hn : (l.length : ℝ) ≠ 0 := by
    simpa using List.length_eq_zero.not.mpr h
  have hnn : (0 : ℝ) ≤ (l.map fun x => x ^ 2).sum / (l.length : ℝ) :=
    div_nonneg (sum_sq_nonneg l) (Nat.cast_nonneg _)
  rw [root_mean_square, fdiv, if_neg hn, fsqrt, if_neg (not_lt.mpr hnn)]

/-- Claim C6: for every nonempty sequence of canonical samples the root mean
square equals the square root of the mean of the squared samples, is
nonnegative, and is zero exactly when every sample is zero. -/
theorem claim_C6_rms (l : List ℝ) (h : l ≠ []) :
    root_mean_square l =
      F32.fin (Real.sqrt ((l.map fun x => x ^ 2).sum / (l.length : ℝ))) ∧
    (∀ y : ℝ, root_mean_square l = F32.fin y → 0 ≤ y) ∧
    (root_mean_square l = F32.fin 0 ↔ ∀ x ∈ l, x = 0) := by
  have hn : (l.length : ℝ) ≠ 0 := by
    simpa using List.length_eq_zero.not.mpr h
  have heq := root_mean_square_of_ne_nil l h
  refine ⟨heq, ?_, ?_⟩
  · intro y hy
    rw [heq] at hy
    cases hy
    exact Real.sqrt_nonneg _
  · rw [heq]
    have hnn : (0 : ℝ) ≤ (l.map fun x => x ^ 2).sum / (l.length : ℝ) :=
      div_nonneg (sum_sq_nonneg l) (Nat.cast_nonneg _)
    constructor
    · intro hfin
      have hsqrt : Real.sqrt ((l.map fun x => x ^ 2).sum / (l.length : ℝ)) = 0 := by
        injection hfin
      have hle : (l.map fun x => x ^ 2).sum / (l.length : ℝ) ≤ 0 :=
        Real.sqrt_eq_zero'.mp hsqrt
      have hzero : (l.map fun x => x ^ 2).sum / (l.length : ℝ) = 0 :=
        le_antisymm hle hnn
      have hsumzero : (l.map fun x => x ^ 2).sum = 0 := by
        rcases div_eq_zero_iff.mp hzero with h1 | h1
        · exact h1
        · exact absurd h1 hn
      exact (sum_sq_eq_zero_iff l).mp hsumzero
    · intro hall
      have hsumzero : (l.map fun x => x ^ 2).sum = 0 := (sum_sq_eq_zero_iff l).mpr hall
      rw [hsumzero, zero_div, Real.sqrt_zero]

/-- Length of the rendered meter string. -/
lemma horizontal_scale_length (v : F32) (n : ℕ) :
    (horizontal_scale v n).length = n := by
  simp [horizontal_scale]

/-- Character at a valid position of the rendered meter string. -/
lemma horizontal_scale_getElem (v : F32) (n i : ℕ) (h : i < n) :
    (horizontal_scale v n)[i]? =
      some (if i < f32_to_usize (fmul_nat (fclamp v (F32.fin 0) (F32.fin 1)) n)
        then '=' else ' ') := by
  simp [horizontal_scale, List.getElem?_map, List.getElem?_range, h]

/-- The truncated fill count computed by `horizontal_scale` for a finite
value already inside [0,1]. -/
lemma ivalue_fin (q : ℝ) (h0 : 0 ≤ q) (h1 : q ≤ 1) (n : ℕ) :
    f32_to_usize (fmul_nat (fclamp (F32.fin q) (F32.fin 0) (F32.fin 1)) n) =
      min (Int.toNat ⌊q * (n : ℝ)⌋) (2 ^ 64 - 1) := by
  rw [fclamp_fin, clamp, max_eq_left h0, min_eq_left h1]
  by_cases hz : q * (n : ℝ) ≤ 0
  · have hq0 : q * (n : ℝ) = 0 := le_antisymm hz (by positivity)
    simp [fmul_nat, f32_to_usize, hq0]
  · simp [fmul_nat, f32_to_usize, hz]

/-- Number of filled characters in a threshold-rendered row of `n`
characters with threshold `K`. -/
lemma count_filled (K n : ℕ) :
    (((List.range n).map fun i => if i < K then '=' else ' ').filter
        fun ch => ch == '=').length = min K n := by
  induction n with
  | zero => simp
  | succ n ih =>
    rw [List.range_succ, List.map_append, List.filter_append, List.length_append, ih]
    by_cases h : n < K
    · simp only [List.map_cons, List.map_nil, if_pos h]
      simp
      omega
    · simp only [List.map_cons, List.map_nil, if_neg h]
      simp
      omega

/-- The discrete display level for a finite intensity in [0,1] is the
truncation `⌊intensity * num_chars⌋` (for any realistic `num_chars`). -/
lemma display_level_fin (q : ℝ) (h0 : 0 ≤ q) (h1 : q ≤ 1) (n : ℕ)
    (hn : n ≤ 2 ^ 64 - 1) :
    display_level (F32.fin q) n = Int.toNat ⌊q * (n : ℝ)⌋ := by
  have hmul : q * (n : ℝ) ≤ (n : ℝ) := by
    nlinarith [show (0 : ℝ) ≤ (n : ℝ) from Nat.cast_nonneg n]
  have hfl : ⌊q * (n : ℝ)⌋ ≤ (n : ℤ) := by
    calc ⌊q * (n : ℝ)⌋ ≤ ⌊((n : ℕ) : ℝ)⌋ := Int.floor_le_floor hmul
    _ = (n : ℤ) := Int.floor_natCast n
  have htn : Int.toNat ⌊q * (n : ℝ)⌋ ≤ n := by omega
  rw [display_level]
  simp only [horizontal_scale]
  rw [ivalue_fin q h0 h1 n, min_eq_left (le_trans htn hn), count_filled]
  omega

/-- Claim C3 (counterexample): at intensity 1/20 with 16 characters the
source's truncation produces display level 0 (⌊0.8⌋ = 0), while the spec's
formula `round(intensity * (level_count - 1))` gives 1 (round(0.75) = 1);
the two disagree, so the mapping is not `round(intensity * (level_count -
1))`. -/
theorem claim_C3_counterexample :
    display_level (F32.fin (1 / 20)) 16 = 0 ∧
    scale_to_discrete_level_spec (1 / 20) 16 = 1 := by
  constructor
  · rw [display_level_fin (1 / 20) (by norm_num) (by norm_num) 16 (by norm_num)]
    have hfl : ⌊(1 / 20 : ℝ) * ((16 : ℕ) : ℝ)⌋ = 0 := by
      rw [Int.floor_eq_zero_iff]
      constructor <;> norm_num
    rw [hfl]
    rfl
  · rw [scale_to_discrete_level_spec, round_eq]
    have hfl : ⌊(1 / 20 : ℝ) * (((16 : ℕ) : ℝ) - 1) + 1 / 2⌋ = 1 := by
      rw [Int.floor_eq_iff]
      constructor <;> norm_num
    exact hfl

/-- Claim C3 (amended): the source maps a finite intensity to a discrete
display level by truncation, `⌊clamp(intensity, 0, 1) * num_chars⌋`
(giving `num_chars + 1` possible levels), and this is exact at the two
endpoints: intensity 0 yields level 0 and intensity 1 yields level
`num_chars` (all characters filled). -/
theorem claim_C3_amended (n : ℕ) (q : ℝ) (h0 : 0 ≤ q) (h1 : q ≤ 1)
    (hn : n ≤ 2 ^ 64 - 1) :
    display_level (F32.fin q) n = Int.toNat ⌊q * (n : ℝ)⌋ ∧
    display_level (F32.fin 0) n = 0 ∧
    display_level (F32.fin 1) n = n := by
  refine ⟨display_level_fin q h0 h1 n hn, ?_, ?_⟩
  · rw [display_level_fin 0 le_rfl zero_le_one n hn]
    simp
  · rw [display_level_fin 1 zero_le_one le_rfl n hn]
    simp

/-- Witness for the amended claim C3, at intensity 1/2 with 16 characters. -/
theorem claim_C3_amended_witness :
    ((0 : ℝ) ≤ 1 / 2) ∧ ((1 / 2 : ℝ) ≤ 1) ∧ (16 ≤ 2 ^ 64 - 1) ∧
    (display_level (F32.fin (1 / 2)) 16 = Int.toNat ⌊(1 / 2 : ℝ) * ((16 : ℕ) : ℝ)⌋ ∧
      display_level (F32.fin 0) 16 = 0 ∧
      display_level (F32.fin 1) 16 = 16) :=
  ⟨by norm_num, by norm_num, by norm_num,
    claim_C3_amended 16 (1 / 2) (by norm_num) (by norm_num) (by norm_num)⟩

/-- Claim C10: for every input value (finite or not, NaN included) and every
character count, the rendered meter has exactly `num_chars` characters, each
character is a filled mark or a blank, and every filled mark precedes every
blank (the filled region is a contiguous leading run). -/
theorem claim_C10_meter (v : F32) (n : ℕ) :
    (horizontal_scale v n).length = n ∧
    (∀ ch ∈ horizontal_scale v n, ch = '=' ∨ ch = ' ') ∧
    (∀ i j : ℕ, i < j → (horizontal_scale v n)[j]? = some '=' →
      (horizontal_scale v n)[i]? = some '=') := by
  refine ⟨horizontal_scale_length v n, ?_, ?_⟩
  · intro ch hch
    simp only [horizontal_scale, List.mem_map] at hch
    obtain ⟨i, -, rfl⟩ := hch
    split_ifs <;> simp
  · intro i j hij hj
    have hjn : j < n := by
      by_contra hge
      have hnone : (horizontal_scale v n)[j]? = none :=
        List.getElem?_eq_none (by rw [horizontal_scale_length]; omega)
      rw [hnone] at hj
      exact Option.noConfusion hj
    rw [horizontal_scale_getElem v n j hjn] at hj
    have hjK : j < f32_to_usize (fmul_nat (fclamp v (F32.fin 0) (F32.fin 1)) n) := by
      by_contra hK
      rw [if_neg hK] at hj
      simp at hj
    rw [horizontal_scale_getElem v n i (by omega), if_pos (by omega)]

/-- Unfolding lemma: `stepBy` on the empty list. -/
lemma stepBy_nil {α : Type} (s : ℕ) : stepBy s ([] : List α) = [] := by
  simp [stepBy]

/-- Unfolding lemma: `stepBy` yields the head, then continues after skipping
`s - 1` elements. -/
lemma stepBy_cons {α : Type} (s : ℕ) (a : α) (rest : List α) :
    stepBy s (a :: rest) = a :: stepBy s (rest.drop (s - 1)) := by
  simp [stepBy]

/-- Element `j` of `stepBy s l` is element `j * s` of `l`. -/
lemma stepBy_getElem {α : Type} (s : ℕ) (hs : 1 ≤ s) (j : ℕ) (l : List α) :
    (stepBy s l)[j]? = l[j * s]? := by
  induction j generalizing l with
  | zero =>
    cases l with
    | nil => simp [stepBy]
    | cons a rest => simp [stepBy]
  | succ j ih =>
    cases l with
    | nil => simp [stepBy]
    | cons a rest =>
      have hms : (j + 1) * s = j * s + s := by ring
      have hidx : (j + 1) * s = (s - 1 + j * s) + 1 := by omega
      rw [stepBy_cons, hidx]
      simp only [List.getElem?_cons_succ]
      rw [ih, List.getElem?_drop]

/-- Length of `stepBy s l`: the ceiling of `l.length / s`. -/
theorem stepBy_length {α : Type} (s : ℕ) (hs : 1 ≤ s) (l : List α) :
    (stepBy s l).length = (l.length + s - 1) / s := by
  cases l with
  | nil =>
    rw [stepBy_nil]
    simp only [List.length_nil]
    exact (Nat.div_eq_of_lt (by omega)).symm
  | cons a rest =>
    rw [stepBy_cons]
    have ih := stepBy_length s hs (rest.drop (s - 1))
    simp only [List.length_cons, List.length_drop] at ih ⊢
    rw [ih]
    have h0 : 0 < s := hs
    rcases Nat.lt_or_ge rest.length (s - 1) with hlt | hge
    · have e1 : rest.length - (s - 1) = 0 := by omega
      rw [e1]
      have e2 : rest.length + 1 + s - 1 = rest.length + s := by omega
      rw [e2, Nat.add_div_right _ h0]
      have e3 : (0 + s - 1) / s = 0 := Nat.div_eq_of_lt (by omega)
      have e4 : rest.length / s = 0 := Nat.div_eq_of_lt (by omega)
      rw [e3, e4]
    · have e1 : rest.length - (s - 1) + s - 1 = rest.length := by omega
      rw [e1]
      have e2 : rest.length + 1 + s - 1 = rest.length + s := by omega
      rw [e2, Nat.add_div_right _ h0]
termination_by l.length
decreasing_by simp [List.length_drop]; omega

/-- With `nc` dividing the buffer length, every channel extracted by the
source has exactly `length / nc` samples, so the channel lengths sum back to
the buffer length. -/
lemma deinterleave_length_sum (l : List ℝ) (nc : ℕ) (h1 : 1 ≤ nc)
    (h2 : nc ∣ l.length) :
    ((deinterleave l nc).map List.length).sum = l.length := by
  obtain ⟨q, hq⟩ := h2
  rw [deinterleave, List.map_map]
  have hcongr : ∀ ci ∈ List.range nc,
      (List.length ∘ fun ci => deinterleave_channel l ci nc) ci = q := by
    intro ci hci
    rw [List.mem_range] at hci
    simp only [Function.comp_apply]
    rw [deinterleave_channel, stepBy_length nc h1, List.length_drop, hq]
    rcases Nat.eq_zero_or_pos q with rfl | hqpos
    · have e : nc * 0 - ci + nc - 1 = nc - 1 := by omega
      rw [e]
      exact Nat.div_eq_of_lt (by omega)
    · have hnc : nc ≤ nc * q := le_mul_of_one_le_right (Nat.zero_le nc) hqpos
      have e : nc * q - ci + nc - 1 = nc * q + (nc - 1 - ci) := by omega
      rw [e, Nat.mul_add_div (by omega), Nat.div_eq_of_lt (by omega)]
      omega
  rw [List.map_congr_left hcongr]
  simp [hq, mul_comm]

/-- Collecting `l[k]?` over `k < n` recovers `l.take n`. -/
lemma filterMap_getElem_range {α : Type} (l : List α) (n : ℕ) :
    (List.range n).filterMap (fun k => l[k]?) = l.take n := by
  induction n with
  | zero => simp
  | succ n ih =>
    rw [List.range_succ, List.filterMap_append, ih, List.take_succ]
    cases h : l[n]? <;> simp [h, List.filterMap_cons]

/-- Round trip: reinterleaving the channels the source extracts from an
interleaved buffer reconstructs the buffer exactly. -/
theorem reinterleave_deinterleave (l : List ℝ) (nc : ℕ) (h1 : 1 ≤ nc)
    (h2 : nc ∣ l.length) :
    reinterleave (deinterleave l nc) = l := by
  have hlen : (deinterleave l nc).length = nc := by simp [deinterleave]
  have hsum := deinterleave_length_sum l nc h1 h2
  rw [reinterleave, hlen, hsum]
  have hf : ∀ k ∈ List.range l.length,
      ((deinterleave l nc)[k % nc]?).bind (fun ch => ch[k / nc]?) = l[k]? := by
    intro k hk
    have hmod : k % nc < nc := Nat.mod_lt _ (by omega)
    have hch : (deinterleave l nc)[k % nc]? =
        some (deinterleave_channel l (k % nc) nc) := by
      simp [deinterleave, List.getElem?_map, List.getElem?_range, hmod]
    rw [hch, Option.some_bind, deinterleave_channel, stepBy_getElem nc h1,
      List.getElem?_drop]
    congr 1
    rw [Nat.mul_comm (k / nc) nc]
    exact Nat.mod_add_div k nc
  rw [List.filterMap_congr hf, filterMap_getElem_range l l.length, List.take_length]

/-- Claim C7: for a channel count dividing the buffer length, channel `i`
holds exactly the buffer elements at indices `i, i + nc, i + 2 * nc, ...` in
original order (element `j` of channel `i` is buffer element `i + j * nc`,
and positions past the channel end match the buffer running out), and
reinterleaving the per-channel sequences reconstructs the buffer exactly. -/
theorem claim_C7_deinterleave (l : List ℝ) (nc : ℕ) (h1 : 1 ≤ nc)
    (h2 : nc ∣ l.length) :
    (deinterleave l nc).length = nc ∧
    (∀ i, i < nc → ∀ j : ℕ, ((deinterleave l nc).getD i [])[j]? = l[i + j * nc]?) ∧
    reinterleave (deinterleave l nc) = l := by
  refine ⟨by simp [deinterleave], ?_, reinterleave_deinterleave l nc h1 h2⟩
  intro i hi j
  have hch : (deinterleave l nc).getD i [] = deinterleave_channel l i nc := by
    rw [List.getD_eq_getElem?_getD]
    simp [deinterleave, List.getElem?_map, List.getElem?_range, hi]
  rw [hch, deinterleave_channel, stepBy_getElem nc h1, List.getElem?_drop]

/-- Witness for claim C7, at the stereo buffer [1, 2, 3, 4]. -/
theorem claim_C7_deinterleave_witness :
    (1 ≤ 2) ∧ (2 ∣ ([1, 2, 3, 4] : List ℝ).length) ∧
    ((deinterleave ([1, 2, 3, 4] : List ℝ) 2).length = 2 ∧
      (∀ i, i < 2 → ∀ j : ℕ,
        ((deinterleave ([1, 2, 3, 4] : List ℝ) 2).getD i [])[j]? =
          ([1, 2, 3, 4] : List ℝ)[i + j * 2]?) ∧
      reinterleave (deinterleave ([1, 2, 3, 4] : List ℝ) 2) = [1, 2, 3, 4]) :=
  ⟨by norm_num, by norm_num, claim_C7_deinterleave [1, 2, 3, 4] 2 (by norm_num) (by norm_num)⟩

/-- Witness for claim C6, at the singleton silent sequence. -/
theorem claim_C6_rms_witness :
    ([(0 : ℝ)] ≠ []) ∧
    (root_mean_square [(0 : ℝ)] =
        F32.fin (Real.sqrt ((([(0 : ℝ)].map fun x => x ^ 2).sum / ([(0 : ℝ)].length : ℝ)))) ∧
      (∀ y : ℝ, root_mean_square [(0 : ℝ)] = F32.fin y → 0 ≤ y) ∧
      (root_mean_square [(0 : ℝ)] = F32.fin 0 ↔ ∀ x ∈ [(0 : ℝ)], x = 0)) :=
  ⟨by simp, claim_C6_rms [(0 : ℝ)] (by simp)⟩

end AudioInStream
